import Mathlib

set_option maxHeartbeats 4000000
set_option maxRecDepth 4000

/-
Verification development for the geocoin game in src/main.ts
(cmpm-121-demo-3).  The simulation core is embedded shallowly:

* JS `Map<string, Set<Coin>>` keyed by the cell-key string "i,j" is
  modelled as an association list keyed by the pair (i, j) — the JS key
  string `i + "," + j` is in bijection with the integer pair, so nothing
  is lost by identifying them.
* JS `Set<Coin>` is modelled as `List Coin` in insertion order: `add`
  of a fresh object appends, `delete` of a found object removes that
  occurrence, `Array.from` reads the list.  Distinct JS objects with
  equal fields correspond to repeated list entries.
* `luck` (imported from luck.ts, a file of this repository that is not
  under src/) is modelled from the spec as a parameter: a pure function
  from keys to rationals.  The two key shapes used by main.ts,
  "i,j" (spawn test) and "i,j,coins" (coin count), are distinct and
  injective strings, which the two constructors of `LuckKey` capture.
* The `generated` field of `GState` is ghost instrumentation recording
  every coin `createCache` has ever produced; the observable fields
  mirror the source exactly and never read it.
-/

abbrev CellKey := Int × Int

/-- The `Coin` interface of main.ts: identity triple plus the
`currentLocation` field that is set at creation and never updated. -/
structure Coin where
  originI : Int
  originJ : Int
  serial : Int
  currentLocation : CellKey
  deriving DecidableEq, Repr

/-- Modelled from the spec: luck.ts is not under src/.  The spec
describes `luck(key)` as a pure, stateless, reproducible function from a
string key to a value in [0,1).  main.ts uses exactly two key shapes per
cell, `[i,j].toString()` = "i,j" and `[i,j,"coins"].toString()` =
"i,j,coins"; those strings are injective and mutually distinct, so the
key space is modelled as this inductive. -/
inductive LuckKey where
  | spawn : Int → Int → LuckKey
  | coins : Int → Int → LuckKey
  deriving DecidableEq, Repr

abbrev Luck := LuckKey → ℚ

/-- A JS `Map<string, Set<Coin>>` in insertion order. -/
abbrev Store := List (CellKey × List Coin)

/-- `Map.get`: the value of the (unique) entry with this key. -/
def mapGet : Store → CellKey → Option (List Coin)
  | [], _ => none
  | p :: t, k => if p.1 = k then some p.2 else mapGet t k

/-- `Map.has`. -/
def hasKey : Store → CellKey → Bool
  | [], _ => false
  | p :: t, k => p.1 = k || hasKey t k

/-- `Map.set`: replace the entry with this key in place if present, else
append a new entry (JS `Map` keeps insertion order). -/
def mapSet : Store → CellKey → List Coin → Store
  | [], k, v => [(k, v)]
  | p :: t, k, v => if p.1 = k then (k, v) :: t else p :: mapSet t k v

/-- `CacheStateCaretaker.saveState`: stores `Array.from(coins)`, a copy
of the live set taken at save time. -/
def saveState (mem : Store) (k : CellKey) (coins : List Coin) : Store :=
  mapSet mem k coins

/-- `CacheStateCaretaker.getState`: returns a copy (`new Set(memento.coins)`)
when a memento exists, `undefined` otherwise.  Note that it does NOT
delete the memento. -/
def getState (mem : Store) (k : CellKey) : Option (List Coin) :=
  mapGet mem k

def NEIGHBORHOOD_SIZE : Nat := 8

/-- The source constant 0.1 (`mkRat 1 10` is the rational 1/10). -/
def CACHE_SPAWN_PROBABILITY : ℚ := mkRat 1 10

/-- The mutable fields of `GameManager` that the simulation core reads
and writes, plus the ghost `generated` history. -/
structure GState where
  cacheStates : Store
  playerCoins : List Coin
  mementos : Store
  path : List (ℚ × ℚ)
  generated : List Coin
  deriving DecidableEq, Repr

/-- The start position 36.98949379578401, -122.06277128548504 as exact
rationals. -/
def OAKES_CLASSROOM : ℚ × ℚ :=
  (mkRat 3698949379578401 100000000000000, mkRat (-12206277128548504) 100000000000000)

/-- The state built by the `GameManager` constructor before
`loadGameState` runs: empty maps, empty inventory, trail seeded with the
start position. -/
def initState : GState :=
  { cacheStates := [], playerCoins := [], mementos := []
  , path := [OAKES_CLASSROOM], generated := [] }

/-- The predicate `collectCoin`/`depositCoin` use with `find?`:
`c.originI === originI && c.originJ === originJ && c.serial === serial`. -/
def coinMatches (oI oJ ser : Int) (c : Coin) : Bool :=
  decide (c.originI = oI ∧ c.originJ = oJ ∧ c.serial = ser)

/-- `GameManager.collectCoin`.  Returns early when the cache is not live
or the named coin is not found; otherwise deletes the found coin from
the live set and adds it to the player inventory. -/
def collectCoin (s : GState) (k : CellKey) (oI oJ ser : Int) : GState :=
  match mapGet s.cacheStates k with
  | none => s
  | some cache =>
    match cache.find? (coinMatches oI oJ ser) with
    | none => s
    | some coin =>
      { s with
          cacheStates := mapSet s.cacheStates k (cache.eraseP (coinMatches oI oJ ser))
        , playerCoins := s.playerCoins ++ [coin] }

/-- `GameManager.depositCoin`.  Returns early when the named coin is not
in the inventory; otherwise removes it from the inventory and adds it to
the cache at the key, creating a fresh cache (`|| new Set()`) when the
key has no live cache. -/
def depositCoin (s : GState) (k : CellKey) (oI oJ ser : Int) : GState :=
  match s.playerCoins.find? (coinMatches oI oJ ser) with
  | none => s
  | some coin =>
    { s with
        playerCoins := s.playerCoins.eraseP (coinMatches oI oJ ser)
      , cacheStates := mapSet s.cacheStates k (((mapGet s.cacheStates k).getD []) ++ [coin]) }

/-- `Math.floor(luck([i,j,"coins"].toString()) * 5) + 1` of `createCache`. -/
def numCoins (luck : Luck) (cell : CellKey) : Int :=
  ⌊luck (.coins cell.1 cell.2) * 5⌋ + 1

/-- The coin set built by the `for (serial = 0; serial < numCoins; ...)`
loop of `createCache`: serials 0, 1, ..., numCoins-1, origin = the cell. -/
def freshCoins (luck : Luck) (cell : CellKey) : List Coin :=
  (List.range (numCoins luck cell).toNat).map
    (fun (ser : Nat) => { originI := cell.1, originJ := cell.2
                        , serial := (ser : Int), currentLocation := cell })

/-- `GameManager.createCache`: installs the fresh coin set as the live
cache and (ghost) records the coins as generated. -/
def createCache (luck : Luck) (cell : CellKey) (live : Store) (gen : List Coin) :
    Store × List Coin :=
  (mapSet live cell (freshCoins luck cell), gen ++ freshCoins luck cell)

/-- The deltas of the double loop in `refreshVisibleArea`:
`for (di = -8; di < 8)` nested over `for (dj = -8; dj < 8)` — a
half-open square, di and dj each range over -8, ..., 7. -/
def viewportDeltas : List (Int × Int) :=
  ((List.range 16).map (fun (a : Nat) =>
    (List.range 16).map (fun (b : Nat) => (((a : Int) - 8), ((b : Int) - 8))))).flatten

/-- The cells `refreshVisibleArea` materializes around a center cell. -/
def viewportCells (center : CellKey) : List CellKey :=
  viewportDeltas.map (fun d => (center.1 + d.1, center.2 + d.2))

/-- The per-cell body of `refreshVisibleArea`: restore d from the
caretaker when a saved state exists, else run the spawn test and
`createCache`.  The caretaker is not modified inside the loop. -/
def refreshLoop (luck : Luck) (car : Store) :
    List CellKey → Store → List Coin → Store × List Coin
  | [], live, gen => (live, gen)
  | cell :: rest, live, gen =>
    match getState car cell with
    | some saved => refreshLoop luck car rest (mapSet live cell saved) gen
    | none =>
      if luck (.spawn cell.1 cell.2) < CACHE_SPAWN_PROBABILITY then
        refreshLoop luck car rest (createCache luck cell live gen).1
          (createCache luck cell live gen).2
      else refreshLoop luck car rest live gen

/-- The save-everything pass at the top of `refreshVisibleArea`:
`for ([cellKey, coins] of cacheStates.entries()) caretaker.saveState(...)`. -/
def saveAll (mem : Store) (entries : Store) : Store :=
  entries.foldl (fun m p => saveState m p.1 p.2) mem

/-- `GameManager.refreshVisibleArea`: save every live cache to the
caretaker, clear the live map, then walk the viewport cells restoring
from the caretaker or spawning via the RNG. -/
def refreshVisibleArea (luck : Luck) (center : CellKey) (s : GState) : GState :=
  { s with
      cacheStates := (refreshLoop luck (saveAll s.mementos s.cacheStates)
        (viewportCells center) [] s.generated).1
    , mementos := saveAll s.mementos s.cacheStates
    , generated := (refreshLoop luck (saveAll s.mementos s.cacheStates)
        (viewportCells center) [] s.generated).2 }

/-- The `GameState` interface serialized by `saveGameState`. -/
structure SavedGameState where
  playerCoins : List Coin
  locationHistory : List (ℚ × ℚ)
  cacheStates : List (CellKey × List Coin)
  deriving DecidableEq, Repr

/-- `GameManager.saveGameState`: flattens inventory, trail and the LIVE
cache map (mementos are not consulted). -/
def saveGameState (s : GState) : SavedGameState :=
  ⟨s.playerCoins, s.path, s.cacheStates⟩

/-- A parsed persisted record whose top-level fields may each be absent
("lacks required fields"). -/
structure RawRecord where
  playerCoins : Option (List Coin)
  locationHistory : Option (List (ℚ × ℚ))
  cacheStates : Option (List (CellKey × List Coin))

/-- What `localStorage.getItem` + `JSON.parse` can produce: no stored
item, a stored item that fails to parse, or a parsed record. -/
inductive StoredValue where
  | missing
  | corrupt
  | record : RawRecord → StoredValue

/-- `GameManager.loadGameState`, with the try/catch control flow made
explicit.  `new Set(undefined)` is an empty set, so a missing
`playerCoins` field assigns an empty inventory without throwing; a
missing `locationHistory` throws at `.map` AFTER the inventory was
assigned; a missing `cacheStates` throws at `for..of` AFTER inventory
and trail were assigned.  The catch block only logs and clears storage —
it does not undo the assignments already made. -/
def loadGameState (v : StoredValue) (s : GState) : GState :=
  match v with
  | .missing => s
  | .corrupt => s
  | .record r =>
    match r.locationHistory with
    | none => { s with playerCoins := r.playerCoins.getD [] }
    | some hist =>
      match r.cacheStates with
      | none => { s with playerCoins := r.playerCoins.getD [], path := hist }
      | some cs =>
        { s with
            playerCoins := r.playerCoins.getD []
          , path := hist
          , cacheStates := cs.foldl (fun m p => mapSet m p.1 p.2) s.cacheStates }

/-- Identity triple of a coin. -/
def trip (c : Coin) : Int × Int × Int := (c.originI, c.originJ, c.serial)

def tripsL (l : List Coin) : Multiset (Int × Int × Int) :=
  ((l.map trip : List (Int × Int × Int)) : Multiset (Int × Int × Int))

def storeCoins (st : Store) : List Coin := (st.map (fun p => p.2)).flatten

def storeTrips (st : Store) : Multiset (Int × Int × Int) := tripsL (storeCoins st)

/-- The caretaker entries of cells with no live cache. -/
def nonLiveMementos (s : GState) : Store :=
  s.mementos.filter (fun p => !(hasKey s.cacheStates p.1))

/-- Effective token content: live caches, inventory, and the mementos of
cells that have no live cache (for a live cell the live set is
authoritative and its memento is a stale copy). -/
def effTrips (s : GState) : Multiset (Int × Int × Int) :=
  storeTrips s.cacheStates + tripsL s.playerCoins + storeTrips (nonLiveMementos s)

/-- Token content read the way claim C1 literally reads it: the plain
union of all live caches, the inventory, and ALL caretaker mementos. -/
def literalTrips (s : GState) : Multiset (Int × Int × Int) :=
  storeTrips s.cacheStates + tripsL s.playerCoins + storeTrips s.mementos

def nodupKeys (st : Store) : Prop := (st.map (fun p => p.1)).Nodup

/-- States reachable from a fresh session by the game's operations:
collect, deposit, and viewport refresh (which performs eviction,
restoration and generation), all against one fixed RNG. -/
inductive Reach (luck : Luck) : GState → Prop where
  | init : Reach luck initState
  | collect : ∀ {s : GState} (k : CellKey) (oI oJ ser : Int),
      Reach luck s → Reach luck (collectCoin s k oI oJ ser)
  | deposit : ∀ {s : GState} (k : CellKey) (oI oJ ser : Int),
      Reach luck s → Reach luck (depositCoin s k oI oJ ser)
  | refresh : ∀ {s : GState} (center : CellKey),
      Reach luck s → Reach luck (refreshVisibleArea luck center s)

/-- Reachability restricted to deposits that target a live cache or a
cell with no memento (a deposit onto a memento-holding, non-live cell
overwrites that memento at the next refresh and loses its tokens). -/
inductive ReachC (luck : Luck) : GState → Prop where
  | init : ReachC luck initState
  | collect : ∀ {s : GState} (k : CellKey) (oI oJ ser : Int),
      ReachC luck s → ReachC luck (collectCoin s k oI oJ ser)
  | deposit : ∀ {s : GState} (k : CellKey) (oI oJ ser : Int),
      hasKey s.cacheStates k = true ∨ hasKey s.mementos k = false →
      ReachC luck s → ReachC luck (depositCoin s k oI oJ ser)
  | refresh : ∀ {s : GState} (center : CellKey),
      ReachC luck s → ReachC luck (refreshVisibleArea luck center s)

/-- Summary of one iteration of the refresh loop body: the cache the
loop installs for a viewport cell (`none` when the cell gets none) —
memento first, RNG spawn test second. -/
def processCell (luck : Luck) (car : Store) (k : CellKey) : Option (List Coin) :=
  match getState car k with
  | some saved => some saved
  | none =>
    if luck (.spawn k.1 k.2) < CACHE_SPAWN_PROBABILITY then some (freshCoins luck k)
    else none

/-- The state invariant behind conservation: well-formed maps, the
effective multiset equals the generated history, no identity triple was
ever generated twice, and every generated coin's origin cell is still
known to the live map or the caretaker. -/
def GameInv (s : GState) : Prop :=
  nodupKeys s.cacheStates ∧ nodupKeys s.mementos ∧
  effTrips s = tripsL s.generated ∧
  (s.generated.map trip).Nodup ∧
  (∀ coin ∈ s.generated, (hasKey s.cacheStates (coin.originI, coin.originJ)
    || hasKey s.mementos (coin.originI, coin.originJ)) = true)

/-- Parsed persisted record in which every top-level field is present —
what `JSON.parse(JSON.stringify(gameState))` yields for a saved
`GameState`. -/
def toRaw (g : SavedGameState) : RawRecord :=
  ⟨some g.playerCoins, some g.locationHistory, some g.cacheStates⟩

/-- A concrete RNG: the spawn test passes only at cell (0,0), and that
cell gets `floor(0 * 5) + 1 = 1` coin. -/
def luckSpawn00 : Luck := fun k =>
  match k with
  | .spawn 0 0 => 0
  | .coins 0 0 => 0
  | _ => mkRat 1 2

/-- A concrete RNG whose spawn test fails everywhere. -/
def luckHalf : Luck := fun _ => mkRat 1 2

/-- A concrete RNG whose spawn test passes at every cell (each cache
gets one coin). -/
def luckZero : Luck := fun _ => 0

/-- The single coin generated at cell (0,0) under `luckSpawn00`. -/
def coin00 : Coin :=
  { originI := 0, originJ := 0, serial := 0, currentLocation := (0, 0) }

/-- One refresh at center (0,0) from a fresh session: cell (0,0) holds a
live one-coin cache, the caretaker is empty. -/
def sA : GState := refreshVisibleArea luckSpawn00 (0, 0) initState

/-- A second refresh at the same center: the cache is saved to the
caretaker and restored live — the coin now sits in both places. -/
def sB : GState := refreshVisibleArea luckSpawn00 (0, 0) sA

/-- A third refresh far away: the live cache is evicted; the coin
survives only in the caretaker memento. -/
def sC : GState := refreshVisibleArea luckSpawn00 (100, 100) sB

/-- A handcrafted state with one live one-coin cache at (0,0). -/
def sLive : GState := { initState with cacheStates := [((0, 0), [coin00])] }

/-- A handcrafted state whose caretaker remembers cell (0,0) as an
emptied cache (empty token set), with no live cache there. -/
def sEmptyMem : GState := { initState with mementos := [((0, 0), [])] }

/-- A handcrafted state with one coin in the player inventory and no
live caches. -/
def sInv : GState := { initState with playerCoins := [coin00] }

/-! ### Association-list map lemmas -/

theorem mapGet_mapSet_self (st : Store) (k : CellKey) (v : List Coin) :
    mapGet (mapSet st k v) k = some v := by
  induction st with
  | nil => simp [mapSet, mapGet]
  | cons p t ih =>
    by_cases h : p.1 = k
    · simp [mapSet, h, mapGet]
    · simp [mapSet, h, mapGet, ih]

theorem mapGet_mapSet_ne (st : Store) {k j : CellKey} (v : List Coin) (h : j ≠ k) :
    mapGet (mapSet st k v) j = mapGet st j := by
  have hkj : ¬k = j := fun hh => h hh.symm
  induction st with
  | nil => simp [mapSet, mapGet, hkj]
  | cons p t ih =>
    by_cases hp : p.1 = k
    · have hpj : ¬p.1 = j := by rw [hp]; exact hkj
      simp only [mapSet, if_pos hp, mapGet]
      simp [hkj, hpj]
    · simp only [mapSet, if_neg hp, mapGet]
      by_cases hj : p.1 = j
      · simp [hj]
      · simp [hj, ih]

theorem hasKey_mapSet (st : Store) (k j : CellKey) (v : List Coin) :
    hasKey (mapSet st k v) j = (hasKey st j || decide (j = k)) := by
  induction st with
  | nil => simp [mapSet, hasKey, eq_comm]
  | cons p t ih =>
    by_cases hp : p.1 = k
    · simp only [mapSet, if_pos hp, hasKey]
      by_cases hj : p.1 = j
      · rw [← hp]
        simp [hj]
      · have hkj : ¬k = j := by rw [← hp]; exact hj
        have hjk : ¬j = k := fun hh => hkj hh.symm
        simp [hasKey, hkj, hj, hjk]
    · simp only [mapSet, if_neg hp, hasKey, ih]
      by_cases hj : p.1 = j <;> simp [hj, Bool.or_assoc]

theorem mapGet_eq_none_iff (st : Store) (k : CellKey) :
    mapGet st k = none ↔ hasKey st k = false := by
  induction st with
  | nil => simp [mapGet, hasKey]
  | cons p t ih =>
    by_cases hp : p.1 = k <;> simp [mapGet, hasKey, hp, ih]

theorem hasKey_of_mapGet_some {st : Store} {k : CellKey} {v : List Coin}
    (h : mapGet st k = some v) : hasKey st k = true := by
  by_cases hh : hasKey st k
  · exact hh
  · rw [(mapGet_eq_none_iff st k).2 (by simpa using hh)] at h
    cases h

theorem mapGet_isSome_iff (st : Store) (k : CellKey) :
    (mapGet st k).isSome = hasKey st k := by
  cases h : mapGet st k with
  | none => simp [(mapGet_eq_none_iff st k).1 h]
  | some v => simp [hasKey_of_mapGet_some h]

theorem not_hasKey_forall {st : Store} {k : CellKey} (h : hasKey st k = false) :
    ∀ p ∈ st, p.1 ≠ k := by
  induction st with
  | nil => simp
  | cons p t ih =>
    simp only [hasKey, Bool.or_eq_false_iff, decide_eq_false_iff_not] at h
    intro q hq
    rcases List.mem_cons.1 hq with rfl | hq
    · exact h.1
    · exact ih h.2 q hq

theorem mapSet_of_not_hasKey (st : Store) {k : CellKey} (v : List Coin)
    (h : hasKey st k = false) : mapSet st k v = st ++ [(k, v)] := by
  induction st with
  | nil => simp [mapSet]
  | cons p t ih =>
    simp only [hasKey, Bool.or_eq_false_iff, decide_eq_false_iff_not] at h
    simp [mapSet, h.1, ih h.2]

theorem keys_mapSet_of_hasKey (st : Store) {k : CellKey} (v : List Coin)
    (h : hasKey st k = true) :
    (mapSet st k v).map (fun p => p.1) = st.map (fun p => p.1) := by
  induction st with
  | nil => simp [hasKey] at h
  | cons p t ih =>
    by_cases hp : p.1 = k
    · simp [mapSet, hp]
    · simp only [hasKey, Bool.or_eq_true, decide_eq_true_eq] at h
      rcases h with h | h
      · exact absurd h hp
      · simp [mapSet, hp, ih h]

theorem nodupKeys_mapSet {st : Store} (k : CellKey) (v : List Coin)
    (h : nodupKeys st) : nodupKeys (mapSet st k v) := by
  by_cases hk : hasKey st k
  · unfold nodupKeys
    rw [keys_mapSet_of_hasKey st v hk]
    exact h
  · unfold nodupKeys
    rw [mapSet_of_not_hasKey st v (by simpa using hk)]
    simp only [List.map_append, List.map_cons, List.map_nil]
    rw [List.nodup_append]
    refine ⟨h, by simp, ?_⟩
    intro a ha
    simp only [List.mem_map] at ha
    rcases ha with ⟨p, hp, rfl⟩
    simp only [List.mem_singleton]
    exact not_hasKey_forall (by simpa using hk) p hp

/-! ### Token multiset bookkeeping -/

theorem tripsL_nil : tripsL [] = 0 := rfl

theorem tripsL_append (l1 l2 : List Coin) : tripsL (l1 ++ l2) = tripsL l1 + tripsL l2 := by
  simp [tripsL]

theorem tripsL_cons (c : Coin) (l : List Coin) : tripsL (c :: l) = trip c ::ₘ tripsL l := by
  simp [tripsL]

theorem storeTrips_nil : storeTrips [] = 0 := rfl

theorem storeTrips_cons (p : CellKey × List Coin) (t : Store) :
    storeTrips (p :: t) = tripsL p.2 + storeTrips t := by
  simp [storeTrips, storeCoins, tripsL]

theorem storeTrips_append (s1 s2 : Store) :
    storeTrips (s1 ++ s2) = storeTrips s1 + storeTrips s2 := by
  simp [storeTrips, storeCoins, tripsL]

theorem tripsL_of_find_eraseP {cache : List Coin} {p : Coin → Bool} {coin : Coin}
    (h : cache.find? p = some coin) :
    tripsL cache = trip coin ::ₘ tripsL (cache.eraseP p) := by
  induction cache with
  | nil => simp [List.find?] at h
  | cons c t ih =>
    by_cases hc : p c
    · rw [List.find?_cons_of_pos _ hc] at h
      cases h
      rw [List.eraseP_cons_of_pos hc, tripsL_cons]
    · rw [List.find?_cons_of_neg _ (by simpa using hc)] at h
      rw [List.eraseP_cons_of_neg (by simpa using hc), tripsL_cons, tripsL_cons, ih h]
      exact Multiset.cons_swap _ _ _

theorem storeTrips_mapSet_present {st : Store} {k : CellKey} {w : List Coin}
    (v : List Coin) (h : mapGet st k = some w) :
    storeTrips (mapSet st k v) + tripsL w = storeTrips st + tripsL v := by
  induction st with
  | nil => simp [mapGet] at h
  | cons p t ih =>
    by_cases hp : p.1 = k
    · rw [mapGet, if_pos hp] at h
      cases h
      simp only [mapSet, if_pos hp, storeTrips_cons]
      abel
    · rw [mapGet, if_neg hp] at h
      simp only [mapSet, if_neg hp, storeTrips_cons]
      have := ih h
      rw [add_assoc, this]
      abel

theorem storeTrips_mapSet_absent {st : Store} {k : CellKey}
    (v : List Coin) (h : hasKey st k = false) :
    storeTrips (mapSet st k v) = storeTrips st + tripsL v := by
  rw [mapSet_of_not_hasKey st v h, storeTrips_append, storeTrips_cons, storeTrips_nil]
  abel

theorem hasKey_iff_mem_keys {st : Store} {k : CellKey} :
    hasKey st k = true ↔ k ∈ st.map (fun p => p.1) := by
  induction st with
  | nil => simp [hasKey]
  | cons p t ih =>
    simp only [hasKey, Bool.or_eq_true, decide_eq_true_eq, ih, List.map_cons, List.mem_cons]
    exact or_congr ⟨Eq.symm, Eq.symm⟩ Iff.rfl

theorem storeTrips_filter_split_key {st : Store} {c : CellKey} {w : List Coin}
    (hnd : nodupKeys st) (hget : mapGet st c = some w) (P : CellKey → Bool)
    (hP : P c = true) :
    storeTrips (st.filter (fun q => P q.1)) =
      tripsL w + storeTrips (st.filter (fun q => P q.1 && !(decide (q.1 = c)))) := by
  induction st with
  | nil => simp [mapGet] at hget
  | cons p t ih =>
    have hnd2 := List.nodup_cons.1 (hnd : (p.1 :: t.map (fun q => q.1)).Nodup)
    have hndt : nodupKeys t := hnd2.2
    by_cases hp : p.1 = c
    · rw [mapGet, if_pos hp] at hget
      cases hget
      have hkeys : p.1 ∉ t.map (fun q => q.1) := hnd2.1
      have hfc : t.filter (fun q => P q.1 && !(decide (q.1 = c))) =
          t.filter (fun q => P q.1) := by
        apply List.filter_congr
        intro x hx
        have hmem : x.1 ∈ t.map (fun q => q.1) := List.mem_map.2 ⟨x, hx, rfl⟩
        have hxc : ¬(x.1 = c) := by
          intro hh
          rw [hh, ← hp] at hmem
          exact hkeys hmem
        simp [hxc]
      have h1 : P p.1 = true := by rw [hp]; exact hP
      simp [List.filter_cons, h1, hp, hP, hfc, storeTrips_cons]
    · rw [mapGet, if_neg hp] at hget
      have h2 : (P p.1 && !(decide (p.1 = c))) = P p.1 := by simp [hp]
      by_cases hPp : P p.1
      · simp only [List.filter_cons]
        rw [h2]
        simp only [hPp, if_true, storeTrips_cons, ih hndt hget]
        abel
      · simp only [List.filter_cons]
        rw [h2]
        simp [hPp, ih hndt hget]

/-! ### Caretaker save-all pass -/

theorem saveAll_nil (mem : Store) : saveAll mem [] = mem := rfl

theorem saveAll_cons (mem : Store) (p : CellKey × List Coin) (t : Store) :
    saveAll mem (p :: t) = saveAll (mapSet mem p.1 p.2) t := rfl

theorem mapGet_saveAll_of_none {entries : Store} {k : CellKey}
    (h : mapGet entries k = none) :
    ∀ mem, mapGet (saveAll mem entries) k = mapGet mem k := by
  induction entries with
  | nil => intro mem; rfl
  | cons p t ih =>
    intro mem
    rw [mapGet] at h
    by_cases hp : p.1 = k
    · rw [if_pos hp] at h; cases h
    · rw [if_neg hp] at h
      rw [saveAll_cons, ih h, mapGet_mapSet_ne _ _ (fun hh => hp hh.symm)]

theorem mapGet_saveAll_of_some {entries : Store} {k : CellKey} {v : List Coin}
    (hnd : nodupKeys entries) (h : mapGet entries k = some v) :
    ∀ mem, mapGet (saveAll mem entries) k = some v := by
  induction entries with
  | nil => simp [mapGet] at h
  | cons p t ih =>
    intro mem
    have hnd2 := List.nodup_cons.1 (hnd : (p.1 :: t.map (fun q => q.1)).Nodup)
    rw [mapGet] at h
    by_cases hp : p.1 = k
    · rw [if_pos hp] at h
      cases h
      have htk : hasKey t k = false := by
        by_cases hh : hasKey t k
        · have hmemk := hasKey_iff_mem_keys.1 hh
          rw [← hp] at hmemk
          exact absurd hmemk hnd2.1
        · simpa using hh
      rw [saveAll_cons, mapGet_saveAll_of_none ((mapGet_eq_none_iff t k).2 htk)]
      rw [hp, mapGet_mapSet_self]
    · rw [if_neg hp] at h
      rw [saveAll_cons, ih hnd2.2 h]

theorem hasKey_saveAll (entries : Store) :
    ∀ (mem : Store) (k : CellKey),
      hasKey (saveAll mem entries) k = (hasKey entries k || hasKey mem k) := by
  induction entries with
  | nil => intro mem k; simp [saveAll_nil, hasKey]
  | cons p t ih =>
    intro mem k
    rw [saveAll_cons, ih, hasKey, hasKey_mapSet]
    by_cases hp : p.1 = k
    · simp [hp, eq_comm]
    · have hkp : ¬k = p.1 := fun hh => hp hh.symm
      simp [hp, hkp, Bool.or_comm, Bool.or_assoc]

theorem nodupKeys_saveAll (entries : Store) :
    ∀ mem : Store, nodupKeys mem → nodupKeys (saveAll mem entries) := by
  induction entries with
  | nil => intro mem h; exact h
  | cons p t ih =>
    intro mem h
    rw [saveAll_cons]
    exact ih _ (nodupKeys_mapSet _ _ h)

theorem filter_mapSet_key_dropped {st : Store} {k : CellKey} {v : List Coin}
    {P : CellKey × List Coin → Bool}
    (hk : ∀ q : CellKey × List Coin, q.1 = k → P q = false) :
    (mapSet st k v).filter P = st.filter P := by
  induction st with
  | nil => simp [mapSet, List.filter_cons, hk (k, v) rfl]
  | cons p t ih =>
    by_cases hp : p.1 = k
    · simp only [mapSet, if_pos hp]
      rw [List.filter_cons, List.filter_cons, hk (k, v) rfl, hk p hp]
      simp
    · simp only [mapSet, if_neg hp]
      rw [List.filter_cons, List.filter_cons, ih]

theorem storeTrips_saveAll {entries : Store} (hnd : nodupKeys entries) :
    ∀ mem : Store, nodupKeys mem →
      storeTrips (saveAll mem entries)
        = storeTrips entries + storeTrips (mem.filter (fun q => !(hasKey entries q.1))) := by
  induction entries with
  | nil =>
    intro mem _
    have hid : mem.filter (fun q => !(hasKey ([] : Store) q.1)) = mem := by
      apply List.filter_eq_self.2
      intro a _
      simp [hasKey]
    rw [saveAll_nil, hid, storeTrips_nil]
    abel
  | cons p t ih =>
    intro mem hmem
    have hnd2 := List.nodup_cons.1 (hnd : (p.1 :: t.map (fun q => q.1)).Nodup)
    have htp : hasKey t p.1 = false := by
      by_cases hh : hasKey t p.1
      · exact absurd (hasKey_iff_mem_keys.1 hh) hnd2.1
      · simpa using hh
    have key : storeTrips ((mapSet mem p.1 p.2).filter (fun q => !(hasKey t q.1)))
        = tripsL p.2 + storeTrips (mem.filter (fun q => !(hasKey (p :: t) q.1))) := by
      have hsplit : ∀ q : CellKey × List Coin,
          (!(hasKey (p :: t) q.1)) = ((!(hasKey t q.1)) && !(decide (q.1 = p.1))) := by
        intro q
        rw [hasKey]
        by_cases h1 : p.1 = q.1
        · simp [h1]
        · have h2 : ¬q.1 = p.1 := fun hh => h1 hh.symm
          simp [h1, h2]
      rw [storeTrips_filter_split_key (nodupKeys_mapSet _ _ hmem)
        (mapGet_mapSet_self mem p.1 p.2) (fun j => !(hasKey t j)) (by simp [htp])]
      rw [filter_mapSet_key_dropped (fun q hq => by simp [hq])]
      have hcg : mem.filter (fun q => (!(hasKey t q.1)) && !(decide (q.1 = p.1)))
          = mem.filter (fun q => !(hasKey (p :: t) q.1)) :=
        List.filter_congr (fun x _ => (hsplit x).symm)
      rw [hcg]
    rw [saveAll_cons, ih hnd2.2 _ (nodupKeys_mapSet _ _ hmem), storeTrips_cons, key]
    abel

/-! ### Fresh cache generation -/

theorem mem_freshCoins {luck : Luck} {cell : CellKey} {coin : Coin}
    (h : coin ∈ freshCoins luck cell) :
    coin.originI = cell.1 ∧ coin.originJ = cell.2 := by
  simp only [freshCoins, List.mem_map, List.mem_range] at h
  obtain ⟨ser, _, rfl⟩ := h
  exact ⟨rfl, rfl⟩

theorem freshCoins_trips_nodup (luck : Luck) (cell : CellKey) :
    ((freshCoins luck cell).map trip).Nodup := by
  have hinj : Function.Injective
      (fun ser : Nat => trip
        { originI := cell.1, originJ := cell.2,
          serial := (ser : Int), currentLocation := cell }) := by
    intro a b hab
    simp only [trip, Prod.mk.injEq] at hab
    exact_mod_cast hab.2.2
  rw [freshCoins, List.map_map]
  exact (List.nodup_range _).map hinj

/-! ### Viewport shape -/

theorem mem_viewportDeltas (d : Int × Int) :
    d ∈ viewportDeltas ↔ (-8 ≤ d.1 ∧ d.1 < 8 ∧ -8 ≤ d.2 ∧ d.2 < 8) := by
  obtain ⟨a, b⟩ := d
  dsimp only
  rw [viewportDeltas, List.mem_flatten]
  constructor
  · rintro ⟨l, hl, hdl⟩
    rw [List.mem_map] at hl
    obtain ⟨x, hx, rfl⟩ := hl
    rw [List.mem_map] at hdl
    obtain ⟨y, hy, hxy⟩ := hdl
    have hxy2 : ((x : Int) - 8, (y : Int) - 8) = (a, b) := hxy
    rw [Prod.mk.injEq] at hxy2
    rw [List.mem_range] at hx hy
    refine ⟨?_, ?_, ?_, ?_⟩ <;> omega
  · rintro ⟨h1, h2, h3, h4⟩
    refine ⟨(List.range 16).map
      (fun (y : Nat) => ((((a + 8).toNat : Nat) : Int) - 8, ((y : Int) - 8))), ?_, ?_⟩
    · rw [List.mem_map]
      exact ⟨(a + 8).toNat, List.mem_range.2 (by omega), rfl⟩
    · rw [List.mem_map]
      refine ⟨(b + 8).toNat, List.mem_range.2 (by omega), ?_⟩
      show ((((a + 8).toNat : Nat) : Int) - 8, (((b + 8).toNat : Nat) : Int) - 8) = (a, b)
      rw [Prod.mk.injEq]
      constructor <;> omega

theorem mem_viewportCells (center k : CellKey) :
    k ∈ viewportCells center ↔
      (center.1 - 8 ≤ k.1 ∧ k.1 < center.1 + 8 ∧ center.2 - 8 ≤ k.2 ∧ k.2 < center.2 + 8) := by
  obtain ⟨ci, cj⟩ := center
  obtain ⟨ki, kj⟩ := k
  dsimp only
  rw [viewportCells, List.mem_map]
  constructor
  · rintro ⟨d, hd, hdk⟩
    have hb := (mem_viewportDeltas d).1 hd
    have hdk2 : (ci + d.1, cj + d.2) = (ki, kj) := hdk
    rw [Prod.mk.injEq] at hdk2
    refine ⟨?_, ?_, ?_, ?_⟩ <;> omega
  · intro h
    refine ⟨(ki - ci, kj - cj), (mem_viewportDeltas _).2 ?_, ?_⟩
    · dsimp only
      refine ⟨?_, ?_, ?_, ?_⟩ <;> omega
    · show (ci + (ki - ci), cj + (kj - cj)) = (ki, kj)
      rw [Prod.mk.injEq]
      constructor <;> omega

set_option maxRecDepth 40000 in
theorem viewportDeltas_nodup : viewportDeltas.Nodup := by decide

theorem viewportCells_nodup (center : CellKey) : (viewportCells center).Nodup := by
  apply List.Nodup.map
  · intro d1 d2 h
    obtain ⟨a1, b1⟩ := d1
    obtain ⟨a2, b2⟩ := d2
    have h2 : (center.1 + a1, center.2 + b1) = (center.1 + a2, center.2 + b2) := h
    rw [Prod.mk.injEq] at h2 ⊢
    constructor <;> omega
  · exact viewportDeltas_nodup

/-! ### The refresh loop -/

theorem refreshLoop_cons_restored {luck : Luck} {car : Store} {cell : CellKey}
    {rest : List CellKey} {live : Store} {gen : List Coin} {saved : List Coin}
    (h : getState car cell = some saved) :
    refreshLoop luck car (cell :: rest) live gen
      = refreshLoop luck car rest (mapSet live cell saved) gen := by
  simp [refreshLoop, h]

theorem refreshLoop_cons_spawn {luck : Luck} {car : Store} {cell : CellKey}
    {rest : List CellKey} {live : Store} {gen : List Coin}
    (h : getState car cell = none)
    (hl : luck (.spawn cell.1 cell.2) < CACHE_SPAWN_PROBABILITY) :
    refreshLoop luck car (cell :: rest) live gen
      = refreshLoop luck car rest (mapSet live cell (freshCoins luck cell))
          (gen ++ freshCoins luck cell) := by
  simp [refreshLoop, h, hl, createCache]

theorem refreshLoop_cons_skip {luck : Luck} {car : Store} {cell : CellKey}
    {rest : List CellKey} {live : Store} {gen : List Coin}
    (h : getState car cell = none)
    (hl : ¬(luck (.spawn cell.1 cell.2) < CACHE_SPAWN_PROBABILITY)) :
    refreshLoop luck car (cell :: rest) live gen
      = refreshLoop luck car rest live gen := by
  simp [refreshLoop, h, hl]

theorem hfresh_maint {live : Store} {cell : CellKey} {rest : List CellKey}
    (hnotin : cell ∉ rest) (hfresh : ∀ c ∈ cell :: rest, hasKey live c = false)
    (v : List Coin) : ∀ c ∈ rest, hasKey (mapSet live cell v) c = false := by
  intro c hc
  rw [hasKey_mapSet]
  have h1 : hasKey live c = false := hfresh c (List.mem_cons_of_mem _ hc)
  have h2 : ¬(c = cell) := fun hh => hnotin (hh ▸ hc)
  simp [h1, h2]

theorem refreshLoop_mapGet (luck : Luck) (car : Store) :
    ∀ (cells : List CellKey) (live : Store) (gen : List Coin),
      cells.Nodup → (∀ c ∈ cells, hasKey live c = false) →
      ∀ k, mapGet (refreshLoop luck car cells live gen).1 k =
        (if k ∈ cells then processCell luck car k else mapGet live k) := by
  intro cells
  induction cells with
  | nil =>
    intro live gen _ _ k
    simp [refreshLoop]
  | cons cell rest ih =>
    intro live gen hnd hfresh k
    have hnd2 := List.nodup_cons.1 hnd
    cases hcar : getState car cell with
    | some saved =>
      rw [refreshLoop_cons_restored hcar]
      rw [ih _ _ hnd2.2 (hfresh_maint hnd2.1 hfresh saved)]
      by_cases hk : k = cell
      · subst hk
        rw [if_neg (by simpa using hnd2.1), if_pos (List.mem_cons_self _ _),
          mapGet_mapSet_self]
        simp [processCell, hcar]
      · by_cases hr : k ∈ rest
        · rw [if_pos hr, if_pos (List.mem_cons_of_mem _ hr)]
        · rw [if_neg hr, if_neg (by simp [hk, hr]), mapGet_mapSet_ne _ _ hk]
    | none =>
      by_cases hluck : luck (.spawn cell.1 cell.2) < CACHE_SPAWN_PROBABILITY
      · rw [refreshLoop_cons_spawn hcar hluck]
        rw [ih _ _ hnd2.2 (hfresh_maint hnd2.1 hfresh _)]
        by_cases hk : k = cell
        · subst hk
          rw [if_neg (by simpa using hnd2.1), if_pos (List.mem_cons_self _ _),
            mapGet_mapSet_self]
          simp [processCell, hcar, hluck]
        · by_cases hr : k ∈ rest
          · rw [if_pos hr, if_pos (List.mem_cons_of_mem _ hr)]
          · rw [if_neg hr, if_neg (by simp [hk, hr]), mapGet_mapSet_ne _ _ hk]
      · rw [refreshLoop_cons_skip hcar hluck]
        rw [ih _ _ hnd2.2 (fun c hc => hfresh c (List.mem_cons_of_mem _ hc))]
        by_cases hk : k = cell
        · subst hk
          rw [if_neg (by simpa using hnd2.1), if_pos (List.mem_cons_self _ _)]
          rw [(mapGet_eq_none_iff _ _).2 (hfresh k (List.mem_cons_self _ _))]
          simp [processCell, hcar, hluck]
        · by_cases hr : k ∈ rest
          · rw [if_pos hr, if_pos (List.mem_cons_of_mem _ hr)]
          · rw [if_neg hr, if_neg (by simp [hk, hr])]

theorem refreshLoop_nodupKeys (luck : Luck) (car : Store) :
    ∀ (cells : List CellKey) (live : Store) (gen : List Coin),
      cells.Nodup → (∀ c ∈ cells, hasKey live c = false) →
      nodupKeys live → nodupKeys (refreshLoop luck car cells live gen).1 := by
  intro cells
  induction cells with
  | nil =>
    intro live gen _ _ h
    simpa [refreshLoop] using h
  | cons cell rest ih =>
    intro live gen hnd hfresh hlive
    have hnd2 := List.nodup_cons.1 hnd
    cases hcar : getState car cell with
    | some saved =>
      rw [refreshLoop_cons_restored hcar]
      exact ih _ _ hnd2.2 (hfresh_maint hnd2.1 hfresh saved) (nodupKeys_mapSet _ _ hlive)
    | none =>
      by_cases hluck : luck (.spawn cell.1 cell.2) < CACHE_SPAWN_PROBABILITY
      · rw [refreshLoop_cons_spawn hcar hluck]
        exact ih _ _ hnd2.2 (hfresh_maint hnd2.1 hfresh _) (nodupKeys_mapSet _ _ hlive)
      · rw [refreshLoop_cons_skip hcar hluck]
        exact ih _ _ hnd2.2 (fun c hc => hfresh c (List.mem_cons_of_mem _ hc)) hlive

theorem refreshLoop_trips (luck : Luck) {car : Store} (hcar : nodupKeys car) :
    ∀ (cells : List CellKey) (live : Store) (gen : List Coin),
      cells.Nodup → (∀ c ∈ cells, hasKey live c = false) →
      storeTrips (refreshLoop luck car cells live gen).1
        + storeTrips (car.filter
            (fun q => !(hasKey (refreshLoop luck car cells live gen).1 q.1)))
        + tripsL gen
      = storeTrips live + storeTrips (car.filter (fun q => !(hasKey live q.1)))
        + tripsL (refreshLoop luck car cells live gen).2 := by
  intro cells
  induction cells with
  | nil =>
    intro live gen _ _
    simp [refreshLoop]
  | cons cell rest ih =>
    intro live gen hnd hfresh
    have hnd2 := List.nodup_cons.1 hnd
    have hcell : hasKey live cell = false := hfresh cell (List.mem_cons_self _ _)
    cases hcarc : getState car cell with
    | some saved =>
      rw [refreshLoop_cons_restored hcarc]
      rw [ih _ _ hnd2.2 (hfresh_maint hnd2.1 hfresh saved)]
      have hmain : storeTrips (mapSet live cell saved)
          + storeTrips (car.filter (fun q => !(hasKey (mapSet live cell saved) q.1)))
          = storeTrips live + storeTrips (car.filter (fun q => !(hasKey live q.1))) := by
        rw [storeTrips_mapSet_absent _ hcell]
        rw [storeTrips_filter_split_key hcar hcarc (fun j => !(hasKey live j))
          (by simp [hcell])]
        have hcg : car.filter (fun q => (!(hasKey live q.1)) && !(decide (q.1 = cell)))
            = car.filter (fun q => !(hasKey (mapSet live cell saved) q.1)) := by
          apply List.filter_congr
          intro x _
          rw [hasKey_mapSet]
          by_cases h1 : hasKey live x.1 <;> by_cases h2 : x.1 = cell <;> simp [h1, h2]
        rw [hcg]
        abel
      rw [hmain]
    | none =>
      by_cases hluck : luck (.spawn cell.1 cell.2) < CACHE_SPAWN_PROBABILITY
      · rw [refreshLoop_cons_spawn hcarc hluck]
        have hlive2 : storeTrips (mapSet live cell (freshCoins luck cell))
            = storeTrips live + tripsL (freshCoins luck cell) :=
          storeTrips_mapSet_absent _ hcell
        have hfilter : car.filter
              (fun q => !(hasKey (mapSet live cell (freshCoins luck cell)) q.1))
            = car.filter (fun q => !(hasKey live q.1)) := by
          apply List.filter_congr
          intro x hx
          have hxc : ¬(x.1 = cell) :=
            not_hasKey_forall ((mapGet_eq_none_iff car cell).1 hcarc) x hx
          rw [hasKey_mapSet]
          simp [hxc]
        have hih := ih (mapSet live cell (freshCoins luck cell))
          (gen ++ freshCoins luck cell) hnd2.2
          (hfresh_maint hnd2.1 hfresh (freshCoins luck cell))
        rw [hlive2, hfilter, tripsL_append] at hih
        apply add_right_cancel (b := tripsL (freshCoins luck cell))
        calc storeTrips (refreshLoop luck car rest (mapSet live cell (freshCoins luck cell))
              (gen ++ freshCoins luck cell)).1
            + storeTrips (car.filter (fun q =>
                !(hasKey (refreshLoop luck car rest (mapSet live cell (freshCoins luck cell))
                  (gen ++ freshCoins luck cell)).1 q.1)))
            + tripsL gen + tripsL (freshCoins luck cell)
            = storeTrips (refreshLoop luck car rest (mapSet live cell (freshCoins luck cell))
                (gen ++ freshCoins luck cell)).1
              + storeTrips (car.filter (fun q =>
                  !(hasKey (refreshLoop luck car rest (mapSet live cell (freshCoins luck cell))
                    (gen ++ freshCoins luck cell)).1 q.1)))
              + (tripsL gen + tripsL (freshCoins luck cell)) := by abel
          _ = storeTrips live + tripsL (freshCoins luck cell)
              + storeTrips (car.filter (fun q => !(hasKey live q.1)))
              + tripsL (refreshLoop luck car rest (mapSet live cell (freshCoins luck cell))
                  (gen ++ freshCoins luck cell)).2 := hih
          _ = storeTrips live + storeTrips (car.filter (fun q => !(hasKey live q.1)))
              + tripsL (refreshLoop luck car rest (mapSet live cell (freshCoins luck cell))
                  (gen ++ freshCoins luck cell)).2
              + tripsL (freshCoins luck cell) := by abel
      · rw [refreshLoop_cons_skip hcarc hluck]
        exact ih _ _ hnd2.2 (fun c hc => hfresh c (List.mem_cons_of_mem _ hc))

theorem refreshLoop_gen_inv (luck : Luck) (car : Store) :
    ∀ (cells : List CellKey) (live : Store) (gen : List Coin),
      cells.Nodup → (∀ c ∈ cells, hasKey live c = false) →
      (gen.map trip).Nodup →
      (∀ coin ∈ gen, (hasKey car (coin.originI, coin.originJ)
        || hasKey live (coin.originI, coin.originJ)) = true) →
      (((refreshLoop luck car cells live gen).2.map trip).Nodup ∧
        ∀ coin ∈ (refreshLoop luck car cells live gen).2,
          (hasKey car (coin.originI, coin.originJ)
            || hasKey (refreshLoop luck car cells live gen).1
                (coin.originI, coin.originJ)) = true) := by
  intro cells
  induction cells with
  | nil =>
    intro live gen _ _ h1 h2
    exact ⟨h1, h2⟩
  | cons cell rest ih =>
    intro live gen hnd hfresh hgen horig
    have hnd2 := List.nodup_cons.1 hnd
    have hcell : hasKey live cell = false := hfresh cell (List.mem_cons_self _ _)
    have hmono : ∀ (v : List Coin), ∀ coin ∈ gen,
        (hasKey car (coin.originI, coin.originJ)
          || hasKey (mapSet live cell v) (coin.originI, coin.originJ)) = true := by
      intro v coin hc
      have h := horig coin hc
      rw [hasKey_mapSet]
      simp only [Bool.or_eq_true] at h ⊢
      rcases h with h | h
      · exact Or.inl h
      · exact Or.inr (Or.inl h)
    cases hcarc : getState car cell with
    | some saved =>
      rw [refreshLoop_cons_restored hcarc]
      exact ih _ _ hnd2.2 (hfresh_maint hnd2.1 hfresh saved) hgen (hmono saved)
    | none =>
      by_cases hluck : luck (.spawn cell.1 cell.2) < CACHE_SPAWN_PROBABILITY
      · rw [refreshLoop_cons_spawn hcarc hluck]
        have hcarcell : hasKey car cell = false := by
          rw [← mapGet_eq_none_iff]
          exact hcarc
        have hgen2 : ((gen ++ freshCoins luck cell).map trip).Nodup := by
          rw [List.map_append, List.nodup_append]
          refine ⟨hgen, freshCoins_trips_nodup luck cell, ?_⟩
          intro a ha hb
          rw [List.mem_map] at ha hb
          obtain ⟨x, hx, rfl⟩ := ha
          obtain ⟨y, hy, heq⟩ := hb
          obtain ⟨hyI, hyJ⟩ := mem_freshCoins hy
          have htx := congrArg (fun t : Int × Int × Int => (t.1, t.2.1)) heq
          simp only [trip] at htx
          have hxI : x.originI = cell.1 := by
            rw [← hyI]
            exact (Prod.mk.injEq .. ▸ htx).1.symm
          have hxJ : x.originJ = cell.2 := by
            rw [← hyJ]
            exact (Prod.mk.injEq .. ▸ htx).2.symm
          have h := horig x hx
          rw [hxI, hxJ, Prod.mk.eta, hcarcell, hcell] at h
          simp at h
        have horig2 : ∀ coin ∈ gen ++ freshCoins luck cell,
            (hasKey car (coin.originI, coin.originJ)
              || hasKey (mapSet live cell (freshCoins luck cell))
                  (coin.originI, coin.originJ)) = true := by
          intro coin hc
          rcases List.mem_append.1 hc with hc | hc
          · exact hmono _ coin hc
          · obtain ⟨hI, hJ⟩ := mem_freshCoins hc
            rw [hI, hJ, Prod.mk.eta, hasKey_mapSet]
            simp
        exact ih _ _ hnd2.2 (hfresh_maint hnd2.1 hfresh _) hgen2 horig2
      · rw [refreshLoop_cons_skip hcarc hluck]
        exact ih _ _ hnd2.2 (fun c hc => hfresh c (List.mem_cons_of_mem _ hc)) hgen horig

/-! ### refreshVisibleArea characterization -/

theorem refresh_mapGet (luck : Luck) (center : CellKey) (s : GState) (k : CellKey) :
    mapGet (refreshVisibleArea luck center s).cacheStates k =
      (if k ∈ viewportCells center
       then processCell luck (saveAll s.mementos s.cacheStates) k else none) := by
  have h := refreshLoop_mapGet luck (saveAll s.mementos s.cacheStates)
    (viewportCells center) [] s.generated (viewportCells_nodup center)
    (fun c _ => rfl) k
  simpa [refreshVisibleArea] using h

theorem refresh_mementos (luck : Luck) (center : CellKey) (s : GState) :
    (refreshVisibleArea luck center s).mementos = saveAll s.mementos s.cacheStates := rfl

theorem refresh_playerCoins (luck : Luck) (center : CellKey) (s : GState) :
    (refreshVisibleArea luck center s).playerCoins = s.playerCoins := rfl

/-! ### The reachable-state invariant -/

theorem inv_init : GameInv initState := by
  refine ⟨?_, ?_, ?_, ?_, ?_⟩ <;>
    simp [initState, nodupKeys, effTrips, nonLiveMementos, storeTrips, storeCoins, tripsL]

theorem hasKey_mapSet_of_hasKey {st : Store} {k : CellKey} (h : hasKey st k = true)
    (v : List Coin) (j : CellKey) : hasKey (mapSet st k v) j = hasKey st j := by
  rw [hasKey_mapSet]
  by_cases hj : j = k
  · subst hj
    simp [h]
  · simp [hj]

theorem tripsL_find_eraseP_cancel {l : List Coin} {p : Coin → Bool} {coin : Coin}
    (h : l.find? p = some coin) :
    tripsL (l.eraseP p) + (trip coin ::ₘ 0) = tripsL l := by
  rw [tripsL_of_find_eraseP h]
  rw [Multiset.cons_zero]
  rw [← Multiset.singleton_add]
  abel

theorem inv_collect {s : GState} (hInv : GameInv s) (k : CellKey) (oI oJ ser : Int) :
    GameInv (collectCoin s k oI oJ ser) := by
  obtain ⟨hnd1, hnd2, heff, hgnd, horig⟩ := hInv
  cases hget : mapGet s.cacheStates k with
  | none => simpa [collectCoin, hget] using ⟨hnd1, hnd2, heff, hgnd, horig⟩
  | some cache =>
    cases hfind : cache.find? (coinMatches oI oJ ser) with
    | none => simpa [collectCoin, hget, hfind] using ⟨hnd1, hnd2, heff, hgnd, horig⟩
    | some coin =>
      have hkey : hasKey s.cacheStates k = true := hasKey_of_mapGet_some hget
      have hkeys : ∀ j, hasKey (mapSet s.cacheStates k
          (cache.eraseP (coinMatches oI oJ ser))) j = hasKey s.cacheStates j :=
        hasKey_mapSet_of_hasKey hkey _
      have hST : storeTrips (mapSet s.cacheStates k (cache.eraseP (coinMatches oI oJ ser)))
          + (trip coin ::ₘ 0) = storeTrips s.cacheStates := by
        have h1 := storeTrips_mapSet_present (cache.eraseP (coinMatches oI oJ ser)) hget
        rw [tripsL_of_find_eraseP hfind] at h1
        have h2 : storeTrips (mapSet s.cacheStates k (cache.eraseP (coinMatches oI oJ ser)))
            + (trip coin ::ₘ 0) + tripsL (cache.eraseP (coinMatches oI oJ ser))
            = storeTrips s.cacheStates + tripsL (cache.eraseP (coinMatches oI oJ ser)) := by
          calc storeTrips (mapSet s.cacheStates k (cache.eraseP (coinMatches oI oJ ser)))
              + (trip coin ::ₘ 0) + tripsL (cache.eraseP (coinMatches oI oJ ser))
              = storeTrips (mapSet s.cacheStates k (cache.eraseP (coinMatches oI oJ ser)))
                + (trip coin ::ₘ tripsL (cache.eraseP (coinMatches oI oJ ser))) := by
                  rw [Multiset.cons_zero, ← Multiset.singleton_add]
                  abel
            _ = storeTrips s.cacheStates + tripsL (cache.eraseP (coinMatches oI oJ ser)) := h1
        exact add_right_cancel h2
      simp only [collectCoin, hget, hfind]
      refine ⟨nodupKeys_mapSet _ _ hnd1, hnd2, ?_, hgnd, ?_⟩
      · show storeTrips (mapSet s.cacheStates k (cache.eraseP (coinMatches oI oJ ser)))
          + tripsL (s.playerCoins ++ [coin])
          + storeTrips (nonLiveMementos (GState.mk (mapSet s.cacheStates k
              (cache.eraseP (coinMatches oI oJ ser)))
              (s.playerCoins ++ [coin]) s.mementos s.path s.generated))
          = tripsL s.generated
        have hNL : nonLiveMementos (GState.mk (mapSet s.cacheStates k
            (cache.eraseP (coinMatches oI oJ ser)))
            (s.playerCoins ++ [coin]) s.mementos s.path s.generated)
            = nonLiveMementos s := by
          unfold nonLiveMementos
          exact List.filter_congr (fun x _ => by rw [hkeys])
        rw [hNL, tripsL_append]
        rw [← heff]
        unfold effTrips
        have : tripsL [coin] = trip coin ::ₘ 0 := by
          rw [tripsL_cons, tripsL_nil]
        rw [this]
        calc storeTrips (mapSet s.cacheStates k (cache.eraseP (coinMatches oI oJ ser)))
            + (tripsL s.playerCoins + (trip coin ::ₘ 0))
            + storeTrips (nonLiveMementos s)
            = (storeTrips (mapSet s.cacheStates k (cache.eraseP (coinMatches oI oJ ser)))
              + (trip coin ::ₘ 0)) + tripsL s.playerCoins
              + storeTrips (nonLiveMementos s) := by abel
          _ = storeTrips s.cacheStates + tripsL s.playerCoins
              + storeTrips (nonLiveMementos s) := by rw [hST]
      · intro c hc
        rw [show (GState.mk (mapSet s.cacheStates k (cache.eraseP (coinMatches oI oJ ser)))
            (s.playerCoins ++ [coin]) s.mementos s.path s.generated).cacheStates
            = mapSet s.cacheStates k (cache.eraseP (coinMatches oI oJ ser)) from rfl]
        rw [hkeys]
        exact horig c hc

theorem effTrips_def (s : GState) :
    effTrips s = storeTrips s.cacheStates + tripsL s.playerCoins
      + storeTrips (s.mementos.filter (fun p => !(hasKey s.cacheStates p.1))) := rfl

theorem inv_deposit {s : GState} (hInv : GameInv s) (k : CellKey) (oI oJ ser : Int)
    (hguard : hasKey s.cacheStates k = true ∨ hasKey s.mementos k = false) :
    GameInv (depositCoin s k oI oJ ser) := by
  obtain ⟨hnd1, hnd2, heff, hgnd, horig⟩ := hInv
  cases hfind : s.playerCoins.find? (coinMatches oI oJ ser) with
  | none => simpa [depositCoin, hfind] using ⟨hnd1, hnd2, heff, hgnd, horig⟩
  | some coin =>
    simp only [depositCoin, hfind]
    have hpc : tripsL (s.playerCoins.eraseP (coinMatches oI oJ ser)) + (trip coin ::ₘ 0)
        = tripsL s.playerCoins := tripsL_find_eraseP_cancel hfind
    cases hget : mapGet s.cacheStates k with
    | some w =>
      simp only [Option.getD_some]
      have hkey : hasKey s.cacheStates k = true := hasKey_of_mapGet_some hget
      have hkeys := hasKey_mapSet_of_hasKey hkey (w ++ [coin])
      have hST : storeTrips (mapSet s.cacheStates k (w ++ [coin]))
          = storeTrips s.cacheStates + (trip coin ::ₘ 0) := by
        have h1 := storeTrips_mapSet_present (w ++ [coin]) hget
        rw [tripsL_append] at h1
        have h2 : tripsL [coin] = trip coin ::ₘ 0 := by rw [tripsL_cons, tripsL_nil]
        rw [h2] at h1
        have h3 : storeTrips (mapSet s.cacheStates k (w ++ [coin])) + tripsL w
            = (storeTrips s.cacheStates + (trip coin ::ₘ 0)) + tripsL w := by
          rw [h1]
          abel
        exact add_right_cancel h3
      refine ⟨nodupKeys_mapSet _ _ hnd1, hnd2, ?_, hgnd, ?_⟩
      · rw [effTrips_def]
        simp only
        have hNL : s.mementos.filter
            (fun p => !(hasKey (mapSet s.cacheStates k (w ++ [coin])) p.1))
            = s.mementos.filter (fun p => !(hasKey s.cacheStates p.1)) :=
          List.filter_congr (fun x _ => by rw [hkeys])
        rw [hNL, hST]
        rw [effTrips_def] at heff
        calc storeTrips s.cacheStates + (trip coin ::ₘ 0)
            + tripsL (s.playerCoins.eraseP (coinMatches oI oJ ser))
            + storeTrips (s.mementos.filter (fun p => !(hasKey s.cacheStates p.1)))
            = storeTrips s.cacheStates
              + (tripsL (s.playerCoins.eraseP (coinMatches oI oJ ser)) + (trip coin ::ₘ 0))
              + storeTrips (s.mementos.filter (fun p => !(hasKey s.cacheStates p.1))) := by
                abel
          _ = storeTrips s.cacheStates + tripsL s.playerCoins
              + storeTrips (s.mementos.filter (fun p => !(hasKey s.cacheStates p.1))) := by
                rw [hpc]
          _ = tripsL s.generated := heff
      · intro c hc
        show (hasKey (mapSet s.cacheStates k (w ++ [coin])) (c.originI, c.originJ)
            || hasKey s.mementos (c.originI, c.originJ)) = true
        rw [hkeys]
        exact horig c hc
    | none =>
      simp only [Option.getD_none, List.nil_append]
      have hmem : hasKey s.mementos k = false := by
        rcases hguard with hg | hg
        · rw [(mapGet_eq_none_iff _ _).1 hget] at hg
          cases hg
        · exact hg
      have hcs : hasKey s.cacheStates k = false := (mapGet_eq_none_iff _ _).1 hget
      have hST : storeTrips (mapSet s.cacheStates k [coin])
          = storeTrips s.cacheStates + (trip coin ::ₘ 0) := by
        rw [storeTrips_mapSet_absent _ hcs, tripsL_cons, tripsL_nil]
      refine ⟨nodupKeys_mapSet _ _ hnd1, hnd2, ?_, hgnd, ?_⟩
      · rw [effTrips_def]
        simp only
        have hNL : s.mementos.filter
            (fun p => !(hasKey (mapSet s.cacheStates k [coin]) p.1))
            = s.mementos.filter (fun p => !(hasKey s.cacheStates p.1)) := by
          apply List.filter_congr
          intro x hx
          have hxk : ¬(x.1 = k) := not_hasKey_forall hmem x hx
          rw [hasKey_mapSet]
          simp [hxk]
        rw [hNL, hST]
        rw [effTrips_def] at heff
        calc storeTrips s.cacheStates + (trip coin ::ₘ 0)
            + tripsL (s.playerCoins.eraseP (coinMatches oI oJ ser))
            + storeTrips (s.mementos.filter (fun p => !(hasKey s.cacheStates p.1)))
            = storeTrips s.cacheStates
              + (tripsL (s.playerCoins.eraseP (coinMatches oI oJ ser)) + (trip coin ::ₘ 0))
              + storeTrips (s.mementos.filter (fun p => !(hasKey s.cacheStates p.1))) := by
                abel
          _ = storeTrips s.cacheStates + tripsL s.playerCoins
              + storeTrips (s.mementos.filter (fun p => !(hasKey s.cacheStates p.1))) := by
                rw [hpc]
          _ = tripsL s.generated := heff
      · intro c hc
        show (hasKey (mapSet s.cacheStates k [coin]) (c.originI, c.originJ)
            || hasKey s.mementos (c.originI, c.originJ)) = true
        rw [hasKey_mapSet]
        have h := horig c hc
        simp only [Bool.or_eq_true] at h ⊢
        rcases h with h | h
        · exact Or.inl (Or.inl h)
        · exact Or.inr h

theorem inv_refresh {s : GState} (hInv : GameInv s) (luck : Luck) (center : CellKey) :
    GameInv (refreshVisibleArea luck center s) := by
  obtain ⟨hnd1, hnd2, heff, hgnd, horig⟩ := hInv
  have hcarnd : nodupKeys (saveAll s.mementos s.cacheStates) :=
    nodupKeys_saveAll _ _ hnd2
  have hvc := viewportCells_nodup center
  have hfresh0 : ∀ c ∈ viewportCells center, hasKey ([] : Store) c = false :=
    fun c _ => rfl
  have hnd0 : nodupKeys ([] : Store) := by simp [nodupKeys]
  have horig0 : ∀ coin ∈ s.generated,
      (hasKey (saveAll s.mementos s.cacheStates) (coin.originI, coin.originJ)
        || hasKey ([] : Store) (coin.originI, coin.originJ)) = true := by
    intro c hc
    have h := horig c hc
    show (hasKey (saveAll s.mementos s.cacheStates) (c.originI, c.originJ) || false) = true
    rw [Bool.or_false, hasKey_saveAll]
    exact h
  have hgi := refreshLoop_gen_inv luck (saveAll s.mementos s.cacheStates)
    (viewportCells center) [] s.generated hvc hfresh0 hgnd horig0
  refine ⟨?_, ?_, ?_, ?_, ?_⟩
  · exact refreshLoop_nodupKeys luck _ _ _ _ hvc hfresh0 hnd0
  · exact hcarnd
  · have hloop := refreshLoop_trips luck hcarnd (viewportCells center) [] s.generated
      hvc hfresh0
    have hfilter_all : (saveAll s.mementos s.cacheStates).filter
        (fun q => !(hasKey ([] : Store) q.1)) = saveAll s.mementos s.cacheStates := by
      apply List.filter_eq_self.2
      intro a _
      rfl
    rw [storeTrips_nil, hfilter_all] at hloop
    have hsa := storeTrips_saveAll hnd1 s.mementos hnd2
    rw [effTrips_def] at heff ⊢
    apply add_right_cancel (b := tripsL s.generated)
    calc storeTrips (refreshLoop luck (saveAll s.mementos s.cacheStates)
          (viewportCells center) [] s.generated).1
        + tripsL s.playerCoins
        + storeTrips ((saveAll s.mementos s.cacheStates).filter
            (fun p => !(hasKey (refreshLoop luck (saveAll s.mementos s.cacheStates)
              (viewportCells center) [] s.generated).1 p.1)))
        + tripsL s.generated
        = storeTrips (refreshLoop luck (saveAll s.mementos s.cacheStates)
            (viewportCells center) [] s.generated).1
          + storeTrips ((saveAll s.mementos s.cacheStates).filter
              (fun q => !(hasKey (refreshLoop luck (saveAll s.mementos s.cacheStates)
                (viewportCells center) [] s.generated).1 q.1)))
          + tripsL s.generated
          + tripsL s.playerCoins := by abel
      _ = 0 + storeTrips (saveAll s.mementos s.cacheStates)
          + tripsL (refreshLoop luck (saveAll s.mementos s.cacheStates)
              (viewportCells center) [] s.generated).2
          + tripsL s.playerCoins := by rw [hloop]
      _ = storeTrips s.cacheStates
          + storeTrips (s.mementos.filter (fun q => !(hasKey s.cacheStates q.1)))
          + tripsL (refreshLoop luck (saveAll s.mementos s.cacheStates)
              (viewportCells center) [] s.generated).2
          + tripsL s.playerCoins := by rw [hsa]; abel
      _ = (storeTrips s.cacheStates + tripsL s.playerCoins
          + storeTrips (s.mementos.filter (fun p => !(hasKey s.cacheStates p.1))))
          + tripsL (refreshLoop luck (saveAll s.mementos s.cacheStates)
              (viewportCells center) [] s.generated).2 := by abel
      _ = tripsL s.generated
          + tripsL (refreshLoop luck (saveAll s.mementos s.cacheStates)
              (viewportCells center) [] s.generated).2 := by rw [heff]
      _ = tripsL (refreshLoop luck (saveAll s.mementos s.cacheStates)
            (viewportCells center) [] s.generated).2 + tripsL s.generated := by abel
  · exact hgi.1
  · intro c hc
    have h := hgi.2 c hc
    show (hasKey (refreshLoop luck (saveAll s.mementos s.cacheStates)
        (viewportCells center) [] s.generated).1 (c.originI, c.originJ)
      || hasKey (saveAll s.mementos s.cacheStates) (c.originI, c.originJ)) = true
    rw [Bool.or_comm]
    exact h

/-- Every state reachable under the deposit guard satisfies the
invariant. -/
theorem reachC_inv {luck : Luck} {s : GState} (h : ReachC luck s) : GameInv s := by
  induction h with
  | init => exact inv_init
  | collect k oI oJ ser _ ih => exact inv_collect ih k oI oJ ser
  | deposit k oI oJ ser hguard _ ih => exact inv_deposit ih k oI oJ ser hguard
  | refresh center _ ih => exact inv_refresh ih luck center

/-! ### Claim theorems -/

/-- C2: fresh cache generation is a deterministic pure function of the
cell.  For a cell in the viewport with no live cache and no memento
whose spawn test passes, `refreshVisibleArea` installs exactly
`freshCoins luck k` — a state-independent function of the cell and the
RNG alone, so repeated fresh generation yields the identical token set —
whose size is `floor(luck("i,j,coins") * 5) + 1`, between 1 and 5 when
`luck` lands in [0,1), with origin (i,j) and serials 0..count-1. -/
theorem C2_fresh_generation (luck : Luck) (s : GState) (center k : CellKey)
    (hlive : hasKey s.cacheStates k = false)
    (hmem : hasKey s.mementos k = false)
    (hvp : k ∈ viewportCells center)
    (hspawn : luck (.spawn k.1 k.2) < CACHE_SPAWN_PROBABILITY)
    (h0 : 0 ≤ luck (.coins k.1 k.2)) (h1 : luck (.coins k.1 k.2) < 1) :
    mapGet (refreshVisibleArea luck center s).cacheStates k
      = some (freshCoins luck k) ∧
    (freshCoins luck k).length = (numCoins luck k).toNat ∧
    numCoins luck k = ⌊luck (.coins k.1 k.2) * 5⌋ + 1 ∧
    1 ≤ numCoins luck k ∧ numCoins luck k ≤ 5 ∧
    (freshCoins luck k).map trip
      = (List.range (numCoins luck k).toNat).map (fun (ser : Nat) => (k.1, k.2, (ser : Int))) := by
  have hfloor0 : 0 ≤ ⌊luck (.coins k.1 k.2) * 5⌋ :=
    Int.floor_nonneg.2 (mul_nonneg h0 (by norm_num))
  have hfloor5 : ⌊luck (.coins k.1 k.2) * 5⌋ < 5 := by
    rw [Int.floor_lt]
    have := mul_lt_mul_of_pos_right h1 (by norm_num : (0:ℚ) < 5)
    simpa using this
  refine ⟨?_, ?_, rfl, ?_, ?_, ?_⟩
  · rw [refresh_mapGet, if_pos hvp]
    have hcar : mapGet (saveAll s.mementos s.cacheStates) k = none := by
      rw [mapGet_saveAll_of_none ((mapGet_eq_none_iff _ _).2 hlive)]
      exact (mapGet_eq_none_iff _ _).2 hmem
    simp [processCell, getState, hcar, hspawn]
  · simp [freshCoins]
  · unfold numCoins
    omega
  · unfold numCoins
    omega
  · rw [freshCoins, List.map_map]
    rfl

/-- C3: memento-first restoration.  For every cell entering the
viewport that has a caretaker memento and no live cache — including a
memento whose token set is empty — the live cache is rebuilt from the
memento's exact token set.  The conclusion holds for EVERY luck
function, so the RNG spawn and generation path cannot influence the
result; in particular an emptied cache that left the viewport is
restored empty, never re-spawned. -/
theorem C3_memento_first (luck : Luck) (s : GState) (center k : CellKey)
    (saved : List Coin)
    (hlive : mapGet s.cacheStates k = none)
    (hmem : getState s.mementos k = some saved)
    (hvp : k ∈ viewportCells center) :
    mapGet (refreshVisibleArea luck center s).cacheStates k = some saved := by
  rw [refresh_mapGet, if_pos hvp]
  have hcar : mapGet (saveAll s.mementos s.cacheStates) k = some saved := by
    rw [mapGet_saveAll_of_none hlive]
    exact hmem
  simp [processCell, getState, hcar]

/-- C3 witness: the caretaker remembers cell (0,0) as emptied; a refresh
under `luckZero` — whose spawn test passes there and would generate a
fresh coin — restores the empty set instead. -/
theorem C3_witness :
    mapGet sEmptyMem.cacheStates (0, 0) = none ∧
    getState sEmptyMem.mementos (0, 0) = some [] ∧
    (0, 0) ∈ viewportCells (0, 0) ∧
    luckZero (.spawn 0 0) < CACHE_SPAWN_PROBABILITY ∧
    mapGet (refreshVisibleArea luckZero (0, 0) sEmptyMem).cacheStates (0, 0) = some [] :=
  ⟨rfl, rfl, by decide, by decide,
    C3_memento_first luckZero sEmptyMem (0, 0) (0, 0) [] rfl rfl (by decide)⟩

/-- C5 (amended): `getState` copies the memento WITHOUT removing it, so
after a refresh a previously live cache in the viewport is held both as
the live cache and as a caretaker memento, with identical token sets;
the original "removing-on-read" claim fails (see the counterexample). -/
theorem C5_restore_keeps_memento (luck : Luck) (s : GState) (center k : CellKey)
    (C : List Coin)
    (hnd : nodupKeys s.cacheStates)
    (hlive : mapGet s.cacheStates k = some C)
    (hvp : k ∈ viewportCells center) :
    mapGet (refreshVisibleArea luck center s).cacheStates k = some C ∧
    getState (refreshVisibleArea luck center s).mementos k = some C := by
  have hcar : mapGet (saveAll s.mementos s.cacheStates) k = some C :=
    mapGet_saveAll_of_some hnd hlive _
  constructor
  · rw [refresh_mapGet, if_pos hvp]
    simp [processCell, getState, hcar]
  · rw [refresh_mementos]
    exact hcar

/-- C5 witness: a live one-coin cache at (0,0) survives a refresh both
as live cache and as memento. -/
theorem C5_witness :
    nodupKeys sLive.cacheStates ∧
    mapGet (refreshVisibleArea luckHalf (0, 0) sLive).cacheStates (0, 0) = some [coin00] ∧
    getState (refreshVisibleArea luckHalf (0, 0) sLive).mementos (0, 0) = some [coin00] := by
  refine ⟨by unfold nodupKeys; decide, ?_, ?_⟩
  · exact (C5_restore_keeps_memento luckHalf sLive (0, 0) (0, 0) [coin00]
      (by unfold nodupKeys; decide) rfl (by decide)).1
  · exact (C5_restore_keeps_memento luckHalf sLive (0, 0) (0, 0) [coin00]
      (by unfold nodupKeys; decide) rfl (by decide)).2

/-- C6: memento immutability (copy-on-save).  `saveState` stores
`Array.from(coins)`, a copy taken at save time, and neither
`collectCoin` nor `depositCoin` touches the caretaker, so after saving a
snapshot for a cell any later collect or deposit (on any cell and coin)
leaves the stored snapshot unchanged and a subsequent restore returns
exactly the saved token set. -/
theorem C6_memento_immutable (s : GState) (k : CellKey) (coins : List Coin)
    (ck : CellKey) (oI oJ ser : Int) :
    getState (collectCoin { s with mementos := saveState s.mementos k coins }
      ck oI oJ ser).mementos k = some coins ∧
    getState (depositCoin { s with mementos := saveState s.mementos k coins }
      ck oI oJ ser).mementos k = some coins := by
  have hc : ∀ (s2 : GState), (collectCoin s2 ck oI oJ ser).mementos = s2.mementos := by
    intro s2
    cases hget : mapGet s2.cacheStates ck with
    | none => simp [collectCoin, hget]
    | some cache =>
      cases hfind : cache.find? (coinMatches oI oJ ser) with
      | none => simp [collectCoin, hget, hfind]
      | some coin => simp [collectCoin, hget, hfind]
  have hd : ∀ (s2 : GState), (depositCoin s2 ck oI oJ ser).mementos = s2.mementos := by
    intro s2
    cases hfind : s2.playerCoins.find? (coinMatches oI oJ ser) with
    | none => simp [depositCoin, hfind]
    | some coin => simp [depositCoin, hfind]
  rw [hc, hd]
  constructor <;>
    exact (by rw [getState, saveState, mapGet_mapSet_self] :
      getState (saveState s.mementos k coins) k = some coins)

/-- C2 witness at `luckSpawn00`, fresh state, cell (0,0). -/
theorem C2_witness :
    luckSpawn00 (.spawn 0 0) < CACHE_SPAWN_PROBABILITY ∧
    0 ≤ luckSpawn00 (.coins 0 0) ∧ luckSpawn00 (.coins 0 0) < 1 ∧
    (mapGet (refreshVisibleArea luckSpawn00 (0, 0) initState).cacheStates (0, 0)
        = some (freshCoins luckSpawn00 (0, 0)) ∧
      (freshCoins luckSpawn00 (0, 0)).length = (numCoins luckSpawn00 (0, 0)).toNat ∧
      numCoins luckSpawn00 (0, 0) = ⌊luckSpawn00 (.coins 0 0) * 5⌋ + 1 ∧
      1 ≤ numCoins luckSpawn00 (0, 0) ∧ numCoins luckSpawn00 (0, 0) ≤ 5 ∧
      (freshCoins luckSpawn00 (0, 0)).map trip
        = (List.range (numCoins luckSpawn00 (0, 0)).toNat).map
            (fun (ser : Nat) => ((0 : Int), (0 : Int), (ser : Int)))) :=
  ⟨by decide, by decide, by decide,
    C2_fresh_generation luckSpawn00 initState (0, 0) (0, 0) rfl rfl (by decide)
      (by decide) (by decide) (by decide)⟩

theorem find_eraseP_none_of_count {l : List Coin} {p : Coin → Bool}
    (h : l.countP p ≤ 1) : (l.eraseP p).find? p = none := by
  induction l with
  | nil => simp
  | cons c t ih =>
    by_cases hc : p c
    · rw [List.eraseP_cons_of_pos hc]
      rw [List.find?_eq_none]
      intro a ha
      have hcnt : List.countP p (c :: t) = List.countP p t + 1 := by
        simp [List.countP_cons, hc]
      have hz : List.countP p t = 0 := by omega
      exact (List.countP_eq_zero.1 hz) a ha
    · rw [List.eraseP_cons_of_neg (by simpa using hc),
        List.find?_cons_of_neg _ (by simpa using hc)]
      have hcnt : List.countP p (c :: t) = List.countP p t := by
        simp [List.countP_cons, hc]
      apply ih
      omega

/-- C7: transfer against an absent source is a benign no-op, and collect
is idempotent.  `collectCoin` with no live cache at the key, or with the
named coin absent from it, returns the state unchanged; `depositCoin`
with the named coin absent from the inventory returns the state
unchanged (all three are total functions — no exception); and when the
live cache holds at most one coin with the named identity triple (true
of every cache the game builds), collecting twice in a row equals
collecting once. -/
theorem C7_noop_idempotent (s : GState) (k : CellKey) (oI oJ ser : Int) :
    (mapGet s.cacheStates k = none → collectCoin s k oI oJ ser = s) ∧
    (∀ cache, mapGet s.cacheStates k = some cache →
      cache.find? (coinMatches oI oJ ser) = none → collectCoin s k oI oJ ser = s) ∧
    (s.playerCoins.find? (coinMatches oI oJ ser) = none → depositCoin s k oI oJ ser = s) ∧
    (((mapGet s.cacheStates k).getD []).countP (coinMatches oI oJ ser) ≤ 1 →
      collectCoin (collectCoin s k oI oJ ser) k oI oJ ser = collectCoin s k oI oJ ser) := by
  refine ⟨?_, ?_, ?_, ?_⟩
  · intro h
    simp [collectCoin, h]
  · intro cache h hf
    simp [collectCoin, h, hf]
  · intro h
    simp [depositCoin, h]
  · intro hcount
    cases hget : mapGet s.cacheStates k with
    | none => simp [collectCoin, hget]
    | some cache =>
      rw [hget] at hcount
      simp only [Option.getD_some] at hcount
      cases hfind : cache.find? (coinMatches oI oJ ser) with
      | none => simp [collectCoin, hget, hfind]
      | some coin =>
        have hs1 : collectCoin s k oI oJ ser
            = { s with
                cacheStates :=
                  mapSet s.cacheStates k (cache.eraseP (coinMatches oI oJ ser)),
                playerCoins := s.playerCoins ++ [coin] } := by
          simp [collectCoin, hget, hfind]
        rw [hs1]
        have hget2 : mapGet (mapSet s.cacheStates k
            (cache.eraseP (coinMatches oI oJ ser))) k
            = some (cache.eraseP (coinMatches oI oJ ser)) := mapGet_mapSet_self _ _ _
        have hfind2 : (cache.eraseP (coinMatches oI oJ ser)).find? (coinMatches oI oJ ser)
            = none := find_eraseP_none_of_count hcount
        simp [collectCoin, hget2, hfind2]

/-- C7 witness at a one-coin cache. -/
theorem C7_witness :
    ((mapGet sLive.cacheStates (0, 0)).getD []).countP (coinMatches 0 0 0) ≤ 1 ∧
    collectCoin (collectCoin sLive (0, 0) 0 0 0) (0, 0) 0 0 0
      = collectCoin sLive (0, 0) 0 0 0 :=
  ⟨by decide, (C7_noop_idempotent sLive (0, 0) 0 0 0).2.2.2 (by decide)⟩

/-- C10: a deposit to a key with no live cache does not no-op — when a
coin matching the identity triple is in the inventory, it creates a
fresh live cache at that key holding exactly the deposited coin, removes
that coin from the inventory, and leaves the caretaker untouched.  A
deposit can thus materialize a cache at a cell where none was ever
spawned. -/
theorem C10_deposit_creates_cache (s : GState) (k : CellKey) (oI oJ ser : Int)
    (coin : Coin)
    (hnone : mapGet s.cacheStates k = none)
    (hfind : s.playerCoins.find? (coinMatches oI oJ ser) = some coin) :
    mapGet (depositCoin s k oI oJ ser).cacheStates k = some [coin] ∧
    (depositCoin s k oI oJ ser).playerCoins
      = s.playerCoins.eraseP (coinMatches oI oJ ser) ∧
    (depositCoin s k oI oJ ser).mementos = s.mementos := by
  simp only [depositCoin, hfind]
  refine ⟨?_, by trivial, by trivial⟩
  show mapGet (mapSet s.cacheStates k (((mapGet s.cacheStates k).getD []) ++ [coin])) k
    = some [coin]
  rw [hnone]
  simp only [Option.getD_none, List.nil_append]
  exact mapGet_mapSet_self _ _ _

/-- C10 witness: depositing the only inventory coin at the never-spawned
cell (5,5). -/
theorem C10_witness :
    mapGet sInv.cacheStates (5, 5) = none ∧
    sInv.playerCoins.find? (coinMatches 0 0 0) = some coin00 ∧
    (mapGet (depositCoin sInv (5, 5) 0 0 0).cacheStates (5, 5) = some [coin00] ∧
      (depositCoin sInv (5, 5) 0 0 0).playerCoins
        = sInv.playerCoins.eraseP (coinMatches 0 0 0) ∧
      (depositCoin sInv (5, 5) 0 0 0).mementos = sInv.mementos) :=
  ⟨rfl, by decide, C10_deposit_creates_cache sInv (5, 5) 0 0 0 coin00 rfl (by decide)⟩

/-- C8: evaluation of `loadGameState` at the failing input.  A missing
item and a parse failure both fall back to the fresh state, as claimed;
but a record that parses and carries `playerCoins` and
`locationHistory` while LACKING the required `cacheStates` field keeps
the partially-restored inventory and trail — the catch block (whose own
comment says "start fresh") does not undo the assignments already made,
contradicting the claim that no partially-restored state is kept. -/
theorem C8_partial_restore :
    loadGameState .missing initState = initState ∧
    loadGameState .corrupt initState = initState ∧
    loadGameState (.record ⟨some [coin00], some [(1, 2)], none⟩) initState
      = { initState with playerCoins := [coin00], path := [(1, 2)] } ∧
    ({ initState with playerCoins := [coin00], path := [(1, 2)] } : GState).playerCoins
      ≠ initState.playerCoins :=
  ⟨rfl, rfl, rfl, by decide⟩

/-- C9 (amended): the set of cells `refreshVisibleArea` materializes is
the HALF-OPEN square: center + [-NEIGHBORHOOD_SIZE, NEIGHBORHOOD_SIZE)
in each coordinate (the loop runs `di < 8`, not `di <= 8`), and no cell
outside it is given a cache by a refresh. -/
theorem C9_viewport_halfopen (center k : CellKey) (luck : Luck) (s : GState) :
    (k ∈ viewportCells center ↔
      (center.1 - (NEIGHBORHOOD_SIZE : Int) ≤ k.1
        ∧ k.1 < center.1 + (NEIGHBORHOOD_SIZE : Int)
        ∧ center.2 - (NEIGHBORHOOD_SIZE : Int) ≤ k.2
        ∧ k.2 < center.2 + (NEIGHBORHOOD_SIZE : Int))) ∧
    (k ∉ viewportCells center →
      mapGet (refreshVisibleArea luck center s).cacheStates k = none) := by
  constructor
  · have h := mem_viewportCells center k
    simpa [NEIGHBORHOOD_SIZE] using h
  · intro h
    rw [refresh_mapGet, if_neg h]

/-- C9 witness: cell (8,8) is outside the materialized square around
(0,0) and gets no cache even under an RNG that spawns everywhere. -/
theorem C9_witness :
    ((8, 8) : CellKey) ∉ viewportCells (0, 0) ∧
    mapGet (refreshVisibleArea luckZero (0, 0) initState).cacheStates (8, 8) = none :=
  ⟨by decide, (C9_viewport_halfopen (0, 0) (8, 8) luckZero initState).2 (by decide)⟩

/-- C1 (amended): effective conservation.  For every state reachable by
collect, deposit and viewport refresh from a fresh session — with each
deposit targeting a live cache or an unmementoed cell — the multiset of
identity triples across the live caches, the player inventory, and the
mementos of cells with NO live cache equals the multiset of all tokens
generated so far, and no triple was ever generated twice (so no token is
duplicated across those effective containers and none vanishes).  As
literally stated the claim is false: a restore copies the memento
without removing it, so a token sits in a live cache and a memento at
once (see the counterexample); and the plain union over ALL mementos
double-counts restored caches. -/
theorem C1_conservation {luck : Luck} {s : GState} (h : ReachC luck s) :
    effTrips s = tripsL s.generated ∧ (s.generated.map trip).Nodup := by
  have hI := reachC_inv h
  exact ⟨hI.2.2.1, hI.2.2.2.1⟩

/-- C1 witness: one refresh from the fresh session. -/
theorem C1_witness :
    effTrips (refreshVisibleArea luckSpawn00 (0, 0) initState)
      = tripsL (refreshVisibleArea luckSpawn00 (0, 0) initState).generated ∧
    ((refreshVisibleArea luckSpawn00 (0, 0) initState).generated.map trip).Nodup :=
  C1_conservation (ReachC.refresh (0, 0) ReachC.init)

/-- C1 counterexample: after two refreshes at the same center the sole
generated coin is in the live cache AND in a caretaker memento, so the
multiset over the plain union {live caches} ∪ {inventory} ∪ {all
mementos} holds the identity triple twice while only one token was ever
generated — the token is in two containers simultaneously. -/
theorem C1_counterexample :
    Reach luckSpawn00 sB ∧
    literalTrips sB ≠ tripsL sB.generated ∧
    literalTrips sB = {(0, 0, 0), (0, 0, 0)} ∧
    tripsL sB.generated = {(0, 0, 0)} ∧
    mapGet sB.cacheStates (0, 0) = some [coin00] ∧
    getState sB.mementos (0, 0) = some [coin00] := by
  refine ⟨Reach.refresh (0, 0) (Reach.refresh (0, 0) Reach.init), ?_, ?_, ?_, ?_, ?_⟩ <;>
    with_unfolding_all decide

/-- C5 counterexample: the reachable state `sB` holds cell (0,0)'s cache
simultaneously as a live cache and as a caretaker memento, refuting
"restore removes the memento, so no cell's cache is simultaneously live
and memento-held". -/
theorem C5_counterexample :
    Reach luckSpawn00 sB ∧
    mapGet sB.cacheStates (0, 0) = some [coin00] ∧
    getState sB.mementos (0, 0) = some [coin00] := by
  refine ⟨Reach.refresh (0, 0) (Reach.refresh (0, 0) Reach.init), ?_, ?_⟩ <;>
    with_unfolding_all decide

theorem hasKey_append (s1 s2 : Store) (k : CellKey) :
    hasKey (s1 ++ s2) k = (hasKey s1 k || hasKey s2 k) := by
  induction s1 with
  | nil => simp [hasKey]
  | cons p t ih =>
    by_cases hp : p.1 = k <;> simp [hasKey, hp, ih, Bool.or_assoc]

theorem saveAll_app {entries : Store} (hnd : nodupKeys entries) :
    ∀ acc, (∀ p ∈ entries, hasKey acc p.1 = false) →
      saveAll acc entries = acc ++ entries := by
  induction entries with
  | nil =>
    intro acc _
    simp [saveAll_nil]
  | cons p t ih =>
    intro acc hacc
    have hnd2 := List.nodup_cons.1 (hnd : (p.1 :: t.map (fun q => q.1)).Nodup)
    rw [saveAll_cons, mapSet_of_not_hasKey acc p.2
      (hacc p (List.mem_cons_self _ _))]
    rw [ih hnd2.2 (acc ++ [p]) ?_]
    · simp
    · intro q hq
      rw [hasKey_append]
      have h1 : hasKey acc q.1 = false := hacc q (List.mem_cons_of_mem _ hq)
      have h2 : ¬(p.1 = q.1) := by
        intro hh
        have hm : q.1 ∈ t.map (fun r => r.1) := List.mem_map.2 ⟨q, hq, rfl⟩
        rw [← hh] at hm
        exact hnd2.1 hm
      simp [h1, hasKey, h2]

/-- C4 (amended): the persistence round-trip reproduces the player
inventory, the trail in order, and the LIVE cache map exactly — but the
caretaker mementos are not serialized (`saveGameState` reads only
`cacheStates`), so the round-tripped state has an empty caretaker and
every memento-only cache state is lost (see the counterexample). -/
theorem C4_roundtrip_live (s : GState) (hnd : nodupKeys s.cacheStates) :
    loadGameState (.record (toRaw (saveGameState s))) initState
      = { cacheStates := s.cacheStates, playerCoins := s.playerCoins,
          mementos := [], path := s.path, generated := [] } := by
  have hfold : saveAll [] s.cacheStates = s.cacheStates := by
    rw [saveAll_app hnd [] (fun p _ => rfl)]
    simp
  have hload : loadGameState (.record (toRaw (saveGameState s))) initState
      = { initState with
          playerCoins := s.playerCoins,
          path := s.path,
          cacheStates := saveAll [] s.cacheStates } := rfl
  rw [hload, hfold]
  rfl

/-- C4 witness at a state with one live cache. -/
theorem C4_witness :
    nodupKeys sLive.cacheStates ∧
    loadGameState (.record (toRaw (saveGameState sLive))) initState
      = { cacheStates := sLive.cacheStates, playerCoins := sLive.playerCoins,
          mementos := [], path := sLive.path, generated := [] } :=
  ⟨by unfold nodupKeys; decide,
    C4_roundtrip_live sLive (by unfold nodupKeys; decide)⟩

/-- C4 counterexample: in the reachable state `sC` the only token lives
in a caretaker memento (its cache is out of the viewport); serializing
and deserializing that state loses the token entirely — the union of
live-cache and memento token sets is NOT reproduced. -/
theorem C4_counterexample :
    Reach luckSpawn00 sC ∧
    literalTrips sC = {(0, 0, 0)} ∧
    literalTrips (loadGameState (.record (toRaw (saveGameState sC))) initState) = 0 := by
  refine ⟨Reach.refresh (100, 100) (Reach.refresh (0, 0)
    (Reach.refresh (0, 0) Reach.init)), ?_, ?_⟩ <;>
    with_unfolding_all decide

/-- C9 counterexample: cell (8,8) lies inside the claimed CLOSED square
of radius 8 around center (0,0), yet a refresh materializes nothing
there even under an RNG whose spawn test passes at every cell — while
the boundary cell (7,7) does get a cache. -/
theorem C9_counterexample :
    ((0 : Int) - 8 ≤ 8 ∧ (8 : Int) ≤ 0 + 8 ∧ (0 : Int) - 8 ≤ 8 ∧ (8 : Int) ≤ 0 + 8) ∧
    ((8, 8) : CellKey) ∉ viewportCells (0, 0) ∧
    mapGet (refreshVisibleArea luckZero (0, 0) initState).cacheStates (7, 7)
      = some (freshCoins luckZero (7, 7)) ∧
    mapGet (refreshVisibleArea luckZero (0, 0) initState).cacheStates (8, 8) = none := by
  refine ⟨by decide, by decide, ?_, ?_⟩
  · rw [refresh_mapGet, if_pos (by decide)]
    rfl
  · rw [refresh_mapGet, if_neg (by decide)]
